import Mathlib

/-!
Shallow embedding of `qutebrowser/widgets/_completion.py` (class
`CompletionView`): the completion state engine backing the command-line
input box.  The engine's own logic (`on_update_completion`, `_next_idx`,
`_next_prev_item`, `completion_item_next/prev`, `selectionChanged`,
`set_model`) is translated directly from the source; external
collaborators that live outside `src/` (the `Completer`, the model
classes' `first_item`/`last_item`/`item_count`/filtering) are modelled
from the spec and kept opaque (a `Registry` of oracle functions) where
the spec leaves them open.

Qt wiring notes: the tree view shows categories as top-level rows and
items as their children, all expanded; `indexAbove`/`indexBelow` walk
this flattened display order; `hide()`/`show()` toggle `visible`;
signal emissions are collected as an `Output` list.
-/

set_option maxHeartbeats 1000000

namespace Completion

/-- Completion candidate (a leaf of the model tree).  `data` is the
primary display text Qt returns for the item's column-0 index
(`None` when no data is set, hence `Option`). -/
structure Item where
  data : Option String
deriving DecidableEq

/-- Grouping header holding an ordered list of items; never selectable. -/
structure Category where
  label : String
  items : List Item
deriving DecidableEq

/-- Completion model as seen by the view: ordered categories of (passing)
items, tagged with the identity of the completion source that produced
it.  The view always works on the filtered view of the model, so the
categories here are the visible rows. -/
structure CompletionModel where
  sourceId : Nat
  categories : List Category
deriving DecidableEq

/-- Modelled from the spec: `itemCount` (the model classes' `item_count`
property is not under `src/`) is the sum of items across categories whose
items currently pass the filter; since `categories` is the filtered view,
that is the total number of items (§3). -/
def itemCount (m : CompletionModel) : Nat :=
  (m.categories.map (fun c => c.items.length)).sum

/-- Display-order row of the tree view: a category header row or an item
row addressed by (category index, item index).  Corresponds to a
`QModelIndex`; `cat` rows have an invalid parent, `item` rows have their
category as parent. -/
inductive DNode where
  | cat (i : Nat)
  | item (r : Nat × Nat)
deriving DecidableEq

/-- Rows of the expanded tree in display order, starting the category
numbering at `i`: each category header followed by its items. -/
def displayFrom : Nat → List Category → List DNode
  | _, [] => []
  | i, c :: cs =>
      DNode.cat i :: ((List.range c.items.length).map (fun j => DNode.item (i, j))
        ++ displayFrom (i + 1) cs)

/-- Display rows of a model. -/
def displayList (m : CompletionModel) : List DNode :=
  displayFrom 0 m.categories

/-- Leaf references (category index, item index) in traversal order,
starting the category numbering at `i`. -/
def leavesFrom : Nat → List Category → List (Nat × Nat)
  | _, [] => []
  | i, c :: cs =>
      (List.range c.items.length).map (fun j => (i, j)) ++ leavesFrom (i + 1) cs

/-- Leaf references of a model in traversal order. -/
def leaves (m : CompletionModel) : List (Nat × Nat) :=
  leavesFrom 0 m.categories

/-- Modelled from the spec: `CompletionModel.first_item` (not under
`src/`) returns the first leaf of the first non-empty category, or an
invalid index (`none`) when the model has no leaves (§4.3). -/
def firstLeafFrom : Nat → List Category → Option (Nat × Nat)
  | _, [] => none
  | i, c :: cs =>
      match c.items with
      | [] => firstLeafFrom (i + 1) cs
      | _ :: _ => some (i, 0)

/-- Modelled from the spec: `CompletionModel.last_item` (not under
`src/`) returns the last leaf of the last non-empty category, or an
invalid index (`none`) when the model has no leaves (§4.3). -/
def lastLeafFrom : Nat → List Category → Option (Nat × Nat)
  | _, [] => none
  | i, c :: cs =>
      match lastLeafFrom (i + 1) cs with
      | some r => some r
      | none =>
          match c.items with
          | [] => none
          | it :: its => some (i, (it :: its).length - 1)

/-- Index of the model's first item (`self._model.first_item()`). -/
def first_item (m : CompletionModel) : Option DNode :=
  (firstLeafFrom 0 m.categories).map (fun r => DNode.item r)

/-- Index of the model's last item (`self._model.last_item()`). -/
def last_item (m : CompletionModel) : Option DNode :=
  (lastLeafFrom 0 m.categories).map (fun r => DNode.item r)

/-- Display rows strictly after the first occurrence of `x`
(successive `indexBelow` steps from row `x`). -/
def rowsAfter : List DNode → DNode → List DNode
  | [], _ => []
  | d :: rest, x => if d = x then rest else rowsAfter rest x

/-- Display rows strictly before the first occurrence of `x`; walking
`indexAbove` from row `x` visits them in reverse order. -/
def rowsBefore : List DNode → DNode → List DNode
  | [], _ => []
  | d :: rest, x => if d = x then [] else d :: rowsBefore rest x

/-- Row predicate for `idx.parent().isValid()`: item rows have a
category as parent, header rows do not. -/
def isItemRow : DNode → Bool
  | DNode.cat _ => false
  | DNode.item _ => true

/-- First item row in a row list; embeds the source's `while True` scan
that keeps stepping while the row is a category header. -/
def firstItemRow : List DNode → Option DNode
  | [] => none
  | DNode.cat _ :: rest => firstItemRow rest
  | DNode.item r :: _ => some (DNode.item r)

/-- Source: `CompletionView._next_idx(upwards)`.  The current index is
`cursor` (`none` when `not idx.isValid()`, in which case the source
returns `self._model.first_item()` for either direction).  Otherwise the
loop steps `indexAbove`/`indexBelow` from the current row: the first
item row encountered is returned; falling off the start returns
`last_item`, falling off the end returns `first_item` (the source also
scrolls to the top there, a rendering effect). -/
def _next_idx (m : CompletionModel) (cursor : Option DNode) (upwards : Bool) :
    Option DNode :=
  match cursor with
  | none => first_item m
  | some idx =>
      if upwards then
        match firstItemRow ((rowsBefore (displayList m) idx).reverse) with
        | some d => some d
        | none => last_item m
      else
        match firstItemRow (rowsAfter (displayList m) idx) with
        | some d => some d
        | none => first_item m

/-- Signals emitted by the engine. -/
inductive Output where
  | changeCompletedPart (text : String) (immediate : Bool)
  | resizeCompletion
deriving DecidableEq

/-- State of one `CompletionView` instance (its Python attributes plus
the Qt selection/visibility state the methods read and write). -/
structure EngineState where
  ignoreChange : Bool
  activeModel : Option CompletionModel
  lastModel : Option CompletionModel
  enabled : Bool
  visible : Bool
  selection : Option DNode
deriving DecidableEq

/-- Raise the reentrancy guard (`self._ignore_change = True`). -/
def echoGuardOn (st : EngineState) : EngineState :=
  { st with ignoreChange := true }

/-- Drop the reentrancy guard (`self._ignore_change = False`). -/
def echoGuardOff (st : EngineState) : EngineState :=
  { st with ignoreChange := false }

/-- External collaborators invoked by the engine but not under `src/`:
`Completer._get_new_completion` (source resolution, §4.1: side-effect
free), the model's `pattern` setter (filter application, §4.2) and
`mark_all_items` (highlight marking, §4.2).  Kept opaque. -/
structure Registry where
  resolve : List String → Nat → Option CompletionModel
  applyPattern : CompletionModel → String → CompletionModel
  markAll : CompletionModel → String → CompletionModel

/-- Modelled from the spec: the source compares `model != self._lastmodel`
where two models are the same iff they share `sourceIdentity` (§3); the
comparison code (model caching in the `Completer`) is not under `src/`. -/
def modelSame : Option CompletionModel → Option CompletionModel → Bool
  | none, none => true
  | some a, some b => a.sourceId = b.sourceId
  | _, _ => false

/-- Source: `CompletionView.set_model(model)`: sets the view's model
(discarding the old selection), expands and resizes (rendering only),
and emits `resize_completion`. -/
def set_model (st : EngineState) (m : CompletionModel) :
    EngineState × List Output :=
  ({ st with activeModel := some m, selection := none },
   [Output.resizeCompletion])

/-- Source, line 251: `pattern = parts[cursor_part] if parts else ''`.
Python indexing raises `IndexError` when `parts` is non-empty and
`cursor_part` is out of range; `none` models the propagated fault. -/
def extract_pattern (parts : List String) (cursorPart : Nat) :
    Option String :=
  if parts.isEmpty then some "" else parts.get? cursorPart

/-- Data Qt returns for a row index (`self._model.data(index)`):
an item row yields the item's column-0 data, a header row yields the
category label, an out-of-range index yields `None`. -/
def dataOf (m : CompletionModel) : DNode → Option String
  | DNode.cat i => (m.categories.get? i).map (fun c => c.label)
  | DNode.item (i, j) =>
      ((m.categories.get? i).bind (fun c => c.items.get? j)).bind
        (fun it => it.data)

/-- Source, lines 251-261 of `on_update_completion`: extract the pattern
from the parts (may fault), apply it to the active model
(`self._model.pattern = pattern`, faulting when `self._model` is `None`),
hide when the filtered count is zero, otherwise mark all items and show
the surface when enabled. -/
def afterPattern (reg : Registry) (st : EngineState) (parts : List String)
    (cursorPart : Nat) (outs : List Output) :
    Option (EngineState × List Output) :=
  match extract_pattern parts cursorPart with
  | none => none
  | some pat =>
      match st.activeModel with
      | none => none
      | some m =>
          let m1 := reg.applyPattern m pat
          if itemCount m1 = 0 then
            some ({ st with activeModel := some m1, visible := false }, outs)
          else
            let m2 := reg.markAll m1 pat
            if st.enabled then
              some ({ st with activeModel := some m2, visible := true }, outs)
            else
              some ({ st with activeModel := some m2 }, outs)

/-- Body of `on_update_completion` after the reentrancy guard check
(source lines 226-261): non-command marker hides and returns; otherwise
resolve a model, swap it in when its identity changed (hiding and
returning when it resolved to `None`), then filter/show via
`afterPattern`. -/
def updateBody (reg : Registry) (st : EngineState) (pre : Char)
    (parts : List String) (cursorPart : Nat) :
    Option (EngineState × List Output) :=
  if pre ≠ ':' then
    some ({ st with visible := false }, [])
  else
    let model := reg.resolve parts cursorPart
    if modelSame model st.lastModel then
      match model with
      | none => some (st, [])
      | some _ => afterPattern reg st parts cursorPart []
    else
      match model with
      | none => some ({ st with lastModel := none, visible := false }, [])
      | some m =>
          let r := set_model { st with lastModel := some m } m
          afterPattern reg r.1 parts cursorPart r.2

/-- Source: `CompletionView.on_update_completion(prefix, parts,
cursor_part)`: ignores the event entirely while the reentrancy guard is
raised, otherwise runs the update body.  `none` models a propagated
exception. -/
def on_update_completion (reg : Registry) (st : EngineState) (pre : Char)
    (parts : List String) (cursorPart : Nat) :
    Option (EngineState × List Output) :=
  if st.ignoreChange then some (st, []) else updateBody reg st pre parts cursorPart

/-- Source: `CompletionView.selectionChanged(selected, deselected)` with
`q = config.get('completion', 'quick-complete')`: when the new selection
is non-empty and its data is present, emit `change_completed_part`
immediately for a quick-completable singleton, else provisionally with
the reentrancy guard raised around the emission. -/
def selectionChanged (q : Bool) (st : EngineState) (selected : List DNode) :
    Option (EngineState × List Output) :=
  match selected with
  | [] => some (st, [])
  | d :: _ =>
      match st.activeModel with
      | none => none
      | some m =>
          match dataOf m d with
          | none => some (st, [])
          | some text =>
              if itemCount m = 1 ∧ q = true then
                some (st, [Output.changeCompletedPart text true])
              else
                let mid := echoGuardOn st
                some (echoGuardOff mid,
                  [Output.changeCompletedPart text false])

/-- Source: `CompletionView._next_prev_item(prev)`: ignore the keypress
when the view is hidden; otherwise select `_next_idx(prev)` via
`setCurrentIndex(... ClearAndSelect | Rows)`, which makes Qt invoke
`selectionChanged` with the newly selected row when the selection
actually changed. -/
def _next_prev_item (q : Bool) (st : EngineState) (prev : Bool) :
    Option (EngineState × List Output) :=
  if st.visible = false then
    some (st, [])
  else
    match st.activeModel with
    | none => none
    | some m =>
        let idx := _next_idx m st.selection prev
        if st.selection = idx then
          some ({ st with selection := idx }, [])
        else
          match idx with
          | none => some ({ st with selection := none }, [])
          | some d => selectionChanged q { st with selection := some d } [d]

/-- Source: `CompletionView.completion_item_next`. -/
def completion_item_next (q : Bool) (st : EngineState) :
    Option (EngineState × List Output) :=
  _next_prev_item q st false

/-- Source: `CompletionView.completion_item_prev`. -/
def completion_item_prev (q : Bool) (st : EngineState) :
    Option (EngineState × List Output) :=
  _next_prev_item q st true

/-! ### Concrete example data used by witnesses and counterexamples -/

/-- Example model: one category holding the two commands of the spec's
worked scenario. -/
def exModel2 : CompletionModel :=
  ⟨1, [⟨"Commands", [⟨some "open"⟩, ⟨some "open-tab"⟩]⟩]⟩

/-- Example model with a single item. -/
def exModel1 : CompletionModel :=
  ⟨1, [⟨"Commands", [⟨some "open"⟩]⟩]⟩

/-- Example model whose sole item has empty display text. -/
def exModelEmptyText : CompletionModel :=
  ⟨2, [⟨"Commands", [⟨some ""⟩]⟩]⟩

/-- Example model whose sole item has no display data at all. -/
def exModelNoData : CompletionModel :=
  ⟨3, [⟨"Commands", [⟨none⟩]⟩]⟩

/-- Registry that always resolves to the given model and leaves models
untouched by filtering and marking. -/
def exRegistry (m : CompletionModel) : Registry :=
  ⟨fun _ _ => some m, fun mm _ => mm, fun mm _ => mm⟩

/-- Registry that never resolves a completion source. -/
def exRegistryNone : Registry :=
  ⟨fun _ _ => none, fun mm _ => mm, fun mm _ => mm⟩

/-- Engine state carrying the given active/last model, guard down. -/
def exState (mo : Option CompletionModel) (vis : Bool) : EngineState :=
  ⟨false, mo, mo, true, vis, none⟩

/-! ### Helper lemmas: the reentrancy guard across the public calls -/

theorem afterPattern_ignoreChange {reg : Registry} {st : EngineState}
    {parts : List String} {cp : Nat} {outs : List Output}
    {r : EngineState × List Output}
    (hr : afterPattern reg st parts cp outs = some r) :
    r.1.ignoreChange = st.ignoreChange := by
  unfold afterPattern at hr
  split at hr
  · cases hr
  · split at hr
    · cases hr
    · dsimp only at hr
      split at hr
      · cases hr; rfl
      · split at hr
        · cases hr; rfl
        · cases hr; rfl

theorem updateBody_ignoreChange {reg : Registry} {st : EngineState}
    {pre : Char} {parts : List String} {cp : Nat}
    {r : EngineState × List Output}
    (hr : updateBody reg st pre parts cp = some r) :
    r.1.ignoreChange = st.ignoreChange := by
  unfold updateBody at hr
  split at hr
  · cases hr; rfl
  · dsimp only at hr
    split at hr
    · split at hr
      · cases hr; rfl
      · have h2 := afterPattern_ignoreChange hr
        exact h2
    · split at hr
      · cases hr; rfl
      · have h2 := afterPattern_ignoreChange hr
        exact h2

theorem selectionChanged_ignoreChange {q : Bool} {st : EngineState}
    {sel : List DNode} {r : EngineState × List Output}
    (hr : selectionChanged q st sel = some r) :
    r.1.ignoreChange = st.ignoreChange ∨ r.1.ignoreChange = false := by
  unfold selectionChanged at hr
  split at hr
  · cases hr; exact Or.inl rfl
  · split at hr
    · cases hr
    · split at hr
      · cases hr; exact Or.inl rfl
      · split at hr
        · cases hr; exact Or.inl rfl
        · cases hr; exact Or.inr rfl

theorem next_prev_item_ignoreChange {q : Bool} {st : EngineState}
    {prev : Bool} {r : EngineState × List Output}
    (hr : _next_prev_item q st prev = some r) :
    r.1.ignoreChange = st.ignoreChange ∨ r.1.ignoreChange = false := by
  unfold _next_prev_item at hr
  split at hr
  · cases hr; exact Or.inl rfl
  · split at hr
    · cases hr
    · dsimp only at hr
      split at hr
      · cases hr; exact Or.inl rfl
      · split at hr
        · cases hr; exact Or.inl rfl
        · have h2 := selectionChanged_ignoreChange hr
          exact h2

/-! ### Navigator lemmas: display order versus leaf order -/

theorem firstItemRow_eq_head_filter (ds : List DNode) :
    firstItemRow ds = (ds.filter isItemRow).head? := by
  induction ds with
  | nil => rfl
  | cons d rest ih =>
      cases d with
      | cat i => simpa [firstItemRow, isItemRow] using ih
      | item r => simp [firstItemRow, isItemRow]

theorem firstItemRow_shape {ds : List DNode} {d : DNode}
    (h : firstItemRow ds = some d) : ∃ r, d = DNode.item r := by
  induction ds with
  | nil => cases h
  | cons a rest ih =>
      cases a with
      | cat i => exact ih h
      | item r =>
          rw [firstItemRow] at h
          cases h
          exact ⟨r, rfl⟩

theorem range_block_filter (i n : Nat) :
    ((List.range n).map (fun j => DNode.item (i, j))).filter isItemRow =
      (List.range n).map (fun j => DNode.item (i, j)) := by
  refine List.filter_eq_self.mpr ?_
  intro a ha
  rcases List.mem_map.mp ha with ⟨j, _, rfl⟩
  rfl

theorem displayFrom_filter (cs : List Category) :
    ∀ i, (displayFrom i cs).filter isItemRow =
      (leavesFrom i cs).map (fun r => DNode.item r) := by
  induction cs with
  | nil => intro i; rfl
  | cons c rest ih =>
      intro i
      rw [displayFrom, leavesFrom]
      rw [List.filter_cons_of_neg (by simp [isItemRow])]
      rw [List.filter_append, range_block_filter, ih (i + 1)]
      rw [List.map_append, List.map_map]
      rfl

theorem leavesFrom_fst_le (cs : List Category) :
    ∀ i r, r ∈ leavesFrom i cs → i ≤ r.1 := by
  induction cs with
  | nil => intro i r h; cases h
  | cons c rest ih =>
      intro i r h
      rw [leavesFrom, List.mem_append] at h
      rcases h with h | h
      · rcases List.mem_map.mp h with ⟨j, _, rfl⟩
        exact Nat.le_refl i
      · exact Nat.le_trans (Nat.le_succ i) (ih (i + 1) r h)

theorem leavesFrom_nodup (cs : List Category) :
    ∀ i, (leavesFrom i cs).Nodup := by
  induction cs with
  | nil => intro i; exact List.nodup_nil
  | cons c rest ih =>
      intro i
      rw [leavesFrom]
      refine List.Nodup.append ?_ (ih (i + 1)) ?_
      · refine List.Nodup.map ?_ (List.nodup_range c.items.length)
        intro a b hab
        cases hab
        rfl
      · intro r hr1 hr2
        rcases List.mem_map.mp hr1 with ⟨j, _, rfl⟩
        have h2 := leavesFrom_fst_le rest (i + 1) (i, j) hr2
        omega

theorem leaves_nodup (m : CompletionModel) : (leaves m).Nodup :=
  leavesFrom_nodup m.categories 0

theorem exists_first_split {α : Type} {x : α} {l : List α} (h : x ∈ l) :
    ∃ A B, l = A ++ x :: B ∧ x ∉ A := by
  induction l with
  | nil => cases h
  | cons a rest ih =>
      by_cases hax : a = x
      · subst hax
        exact ⟨[], rest, rfl, List.not_mem_nil a⟩
      · have hmem : x ∈ rest := by
          rcases List.mem_cons.mp h with h1 | h1
          · exact absurd h1.symm hax
          · exact h1
        rcases ih hmem with ⟨A, B, rfl, hxA⟩
        refine ⟨a :: A, B, rfl, ?_⟩
        intro hc
        rcases List.mem_cons.mp hc with h1 | h1
        · exact hax h1.symm
        · exact hxA h1

theorem rowsAfter_split {A B : List DNode} {x : DNode} (hx : x ∉ A) :
    rowsAfter (A ++ x :: B) x = B := by
  induction A with
  | nil => simp [rowsAfter]
  | cons a rest ih =>
      have hax : ¬(a = x) := fun h => hx (h ▸ List.mem_cons_self a rest)
      rw [List.cons_append, rowsAfter, if_neg hax]
      exact ih (fun h => hx (List.mem_cons_of_mem a h))

theorem rowsBefore_split {A B : List DNode} {x : DNode} (hx : x ∉ A) :
    rowsBefore (A ++ x :: B) x = A := by
  induction A with
  | nil => simp [rowsBefore]
  | cons a rest ih =>
      have hax : ¬(a = x) := fun h => hx (h ▸ List.mem_cons_self a rest)
      rw [List.cons_append, rowsBefore, if_neg hax]
      rw [ih (fun h => hx (List.mem_cons_of_mem a h))]

theorem not_mem_of_nodup_split {α : Type} {T D : List α} {x : α}
    (h : (T ++ x :: D).Nodup) : x ∉ T ∧ x ∉ D := by
  rw [List.nodup_append] at h
  obtain ⟨_, h2, h3⟩ := h
  exact ⟨fun hxT => (h3 hxT) (List.mem_cons_self x D),
    (List.nodup_cons.mp h2).1⟩

theorem split_unique {α : Type} {x : α} :
    ∀ {P Q P2 Q2 : List α}, x ∉ P → x ∉ P2 →
      P ++ x :: Q = P2 ++ x :: Q2 → P = P2 ∧ Q = Q2 := by
  intro P
  induction P with
  | nil =>
      intro Q P2 Q2 _ hP2 h
      cases P2 with
      | nil =>
          rw [List.nil_append, List.nil_append] at h
          exact ⟨rfl, (List.cons.injEq .. ▸ h).2⟩
      | cons b rest =>
          rw [List.nil_append, List.cons_append] at h
          injection h with h1 _
          exact absurd (h1 ▸ List.mem_cons_self b rest) hP2
  | cons a restP ih =>
      intro Q P2 Q2 hP hP2 h
      cases P2 with
      | nil =>
          rw [List.nil_append, List.cons_append] at h
          injection h with h1 _
          exact absurd (h1.symm ▸ List.mem_cons_self a restP) hP
      | cons b rest2 =>
          rw [List.cons_append, List.cons_append] at h
          injection h with h1 h2
          subst h1
          rcases ih (fun hh => hP (List.mem_cons_of_mem a hh))
            (fun hh => hP2 (List.mem_cons_of_mem a hh)) h2 with ⟨rfl, rfl⟩
          exact ⟨rfl, rfl⟩

theorem firstLeafFrom_eq_head (cs : List Category) :
    ∀ i, firstLeafFrom i cs = (leavesFrom i cs).head? := by
  induction cs with
  | nil => intro i; rfl
  | cons c rest ih =>
      intro i
      obtain ⟨label, items⟩ := c
      cases items with
      | nil => simpa [firstLeafFrom, leavesFrom] using ih (i + 1)
      | cons it its =>
          simp [firstLeafFrom, leavesFrom, List.range_succ_eq_map]

theorem range_map_getLast (i n : Nat) (h : n ≠ 0) :
    ((List.range n).map (fun j => ((i, j) : Nat × Nat))).getLast? =
      some (i, n - 1) := by
  cases n with
  | zero => exact absurd rfl h
  | succ n2 =>
      rw [List.range_succ, List.map_append]
      simp [List.getLast?_concat]

theorem lastLeafFrom_eq_getLast (cs : List Category) :
    ∀ i, lastLeafFrom i cs = (leavesFrom i cs).getLast? := by
  induction cs with
  | nil => intro i; rfl
  | cons c rest ih =>
      intro i
      rw [lastLeafFrom, ih (i + 1), leavesFrom]
      cases hrest : (leavesFrom (i + 1) rest).getLast? with
      | some r =>
          have hne : leavesFrom (i + 1) rest ≠ [] := by
            intro h0
            rw [h0] at hrest
            cases hrest
          rw [List.getLast?_append_of_ne_nil _ hne, hrest]
      | none =>
          have h0 : leavesFrom (i + 1) rest = [] :=
            List.getLast?_eq_none_iff.mp hrest
          rw [h0, List.append_nil]
          cases hitems : c.items with
          | nil => rfl
          | cons it its =>
              rw [range_map_getLast i (it :: its).length (by simp)]

theorem first_item_eq (m : CompletionModel) :
    first_item m = ((leaves m).head?).map (fun r => DNode.item r) := by
  rw [first_item, firstLeafFrom_eq_head]
  rfl

theorem last_item_eq (m : CompletionModel) :
    last_item m = ((leaves m).getLast?).map (fun r => DNode.item r) := by
  rw [last_item, lastLeafFrom_eq_getLast]
  rfl

theorem leavesFrom_length (cs : List Category) :
    ∀ i, (leavesFrom i cs).length = (cs.map (fun c => c.items.length)).sum := by
  induction cs with
  | nil => intro i; rfl
  | cons c rest ih =>
      intro i
      rw [leavesFrom, List.length_append, List.length_map, List.length_range,
        List.map_cons, List.sum_cons, ih (i + 1)]

theorem itemCount_eq_length (m : CompletionModel) :
    itemCount m = (leaves m).length := by
  rw [itemCount, leaves, leavesFrom_length]

theorem display_decomp (m : CompletionModel) (k : Nat) (r : Nat × Nat)
    (hr : (leaves m)[k]? = some r) :
    ∃ A B, displayList m = A ++ DNode.item r :: B ∧
      DNode.item r ∉ A ∧
      A.filter isItemRow = ((leaves m).take k).map (fun s => DNode.item s) ∧
      B.filter isItemRow =
        ((leaves m).drop (k + 1)).map (fun s => DNode.item s) := by
  obtain ⟨hk, hget⟩ := List.getElem?_eq_some_iff.mp hr
  have hfil : (displayList m).filter isItemRow =
      (leaves m).map (fun s => DNode.item s) := displayFrom_filter m.categories 0
  have hmem : DNode.item r ∈ displayList m := by
    have h1 : DNode.item r ∈ (displayList m).filter isItemRow := by
      rw [hfil]
      exact List.mem_map.mpr ⟨r, hget ▸ (leaves m).getElem_mem hk, rfl⟩
    exact (List.mem_filter.mp h1).1
  obtain ⟨A, B, hsplit, hxA⟩ := exists_first_split hmem
  have hfil2 : (leaves m).map (fun s => DNode.item s) =
      A.filter isItemRow ++ DNode.item r :: B.filter isItemRow := by
    rw [← hfil, hsplit, List.filter_append, List.filter_cons_of_pos rfl]
  have hk2 : k < ((leaves m).map (fun s => DNode.item s)).length := by
    simpa using hk
  have hcan : (leaves m).map (fun s => DNode.item s) =
      ((leaves m).map (fun s => DNode.item s)).take k ++ DNode.item r ::
        ((leaves m).map (fun s => DNode.item s)).drop (k + 1) := by
    conv_lhs =>
      rw [← List.take_append_drop k ((leaves m).map (fun s => DNode.item s))]
    rw [List.drop_eq_getElem_cons hk2]
    rw [List.getElem_map]
    rw [hget]
  have hnodup : ((leaves m).map (fun s => DNode.item s)).Nodup := by
    refine List.Nodup.map ?_ (leaves_nodup m)
    intro a b hab
    cases hab
    rfl
  obtain ⟨hxT, _⟩ := not_mem_of_nodup_split (hcan ▸ hnodup)
  have hxFA : DNode.item r ∉ A.filter isItemRow :=
    fun hc => hxA (List.mem_filter.mp hc).1
  obtain ⟨hTA, hTB⟩ := split_unique hxFA hxT (hfil2.symm.trans hcan)
  refine ⟨A, B, hsplit, hxA, ?_, ?_⟩
  · rw [hTA, List.map_take]
  · rw [hTB, List.map_drop]

theorem next_idx_down_mod (m : CompletionModel) (k : Nat) (r : Nat × Nat)
    (hr : (leaves m)[k]? = some r) :
    _next_idx m (some (DNode.item r)) false =
      ((leaves m)[(k + 1) % (leaves m).length]?).map
        (fun s => DNode.item s) := by
  obtain ⟨hk, hget⟩ := List.getElem?_eq_some_iff.mp hr
  obtain ⟨A, B, hsplit, hxA, hFA, hFB⟩ := display_decomp m k r hr
  have hscan : firstItemRow (rowsAfter (displayList m) (DNode.item r)) =
      ((leaves m)[k + 1]?).map (fun s => DNode.item s) := by
    rw [hsplit, rowsAfter_split hxA, firstItemRow_eq_head_filter, hFB,
      List.head?_map, List.head?_drop]
  cases hcase : (leaves m)[k + 1]? with
  | some r2 =>
      have hsc : firstItemRow (rowsAfter (displayList m) (DNode.item r)) =
          some (DNode.item r2) := by
        rw [hscan, hcase]
        rfl
      have hlt : k + 1 < (leaves m).length :=
        (List.getElem?_eq_some_iff.mp hcase).1
      rw [Nat.mod_eq_of_lt hlt, hcase]
      simp [_next_idx, hsc]
  | none =>
      have hsc : firstItemRow (rowsAfter (displayList m) (DNode.item r)) =
          none := by
        rw [hscan, hcase]
        rfl
      have hlen : (leaves m).length = k + 1 := by
        have h2 := List.getElem?_eq_none_iff.mp hcase
        omega
      have hmod : (k + 1) % (leaves m).length = 0 := by
        rw [hlen]
        simp
      rw [hmod]
      simp [_next_idx, hsc, first_item_eq, List.head?_eq_getElem?]

theorem next_idx_up_mod (m : CompletionModel) (k : Nat) (r : Nat × Nat)
    (hr : (leaves m)[k]? = some r) :
    _next_idx m (some (DNode.item r)) true =
      ((leaves m)[(k + ((leaves m).length - 1)) % (leaves m).length]?).map
        (fun s => DNode.item s) := by
  obtain ⟨hk, hget⟩ := List.getElem?_eq_some_iff.mp hr
  obtain ⟨A, B, hsplit, hxA, hFA, hFB⟩ := display_decomp m k r hr
  have hscan :
      firstItemRow ((rowsBefore (displayList m) (DNode.item r)).reverse) =
        (((leaves m).take k).getLast?).map (fun s => DNode.item s) := by
    rw [hsplit, rowsBefore_split hxA, firstItemRow_eq_head_filter,
      List.filter_reverse, hFA, List.head?_reverse, List.getLast?_map]
  cases k with
  | zero =>
      have hsc :
          firstItemRow ((rowsBefore (displayList m) (DNode.item r)).reverse) =
            none := by
        rw [hscan]
        rfl
      have hmod : (0 + ((leaves m).length - 1)) % (leaves m).length =
          (leaves m).length - 1 := by
        rw [Nat.zero_add]
        exact Nat.mod_eq_of_lt (by omega)
      rw [hmod]
      simp [_next_idx, hsc, last_item_eq, List.getLast?_eq_getElem?]
  | succ k2 =>
      have hk2n : k2 < (leaves m).length := by omega
      have htake : ((leaves m).take (k2 + 1)).getLast? = (leaves m)[k2]? := by
        rw [List.getLast?_eq_getElem?, List.length_take,
          Nat.min_eq_left (by omega : k2 + 1 ≤ (leaves m).length)]
        simp only [Nat.add_sub_cancel]
        exact List.getElem?_take_of_lt (by omega)
      have hsc :
          firstItemRow ((rowsBefore (displayList m) (DNode.item r)).reverse) =
            some (DNode.item ((leaves m)[k2])) := by
        rw [hscan, htake, List.getElem?_eq_getElem hk2n]
        rfl
      have hmod : (k2 + 1 + ((leaves m).length - 1)) % (leaves m).length =
          k2 := by
        have h1 : k2 + 1 + ((leaves m).length - 1) =
            k2 + (leaves m).length := by omega
        rw [h1, Nat.add_mod_right]
        exact Nat.mod_eq_of_lt hk2n
      rw [hmod, List.getElem?_eq_getElem hk2n]
      simp [_next_idx, hsc]

theorem next_idx_step_mod (m : CompletionModel) (up : Bool) (k : Nat)
    (r : Nat × Nat) (hr : (leaves m)[k]? = some r) :
    _next_idx m (some (DNode.item r)) up =
      ((leaves m)[(k + (if up then (leaves m).length - 1 else 1)) %
        (leaves m).length]?).map (fun s => DNode.item s) := by
  cases up with
  | true => simpa using next_idx_up_mod m k r hr
  | false => simpa using next_idx_down_mod m k r hr

theorem next_idx_iterate (m : CompletionModel) (up : Bool) (t : Nat) :
    ∀ k r, (leaves m)[k]? = some r →
      (fun c => _next_idx m c up)^[t] (some (DNode.item r)) =
        ((leaves m)[(k + t * (if up then (leaves m).length - 1 else 1)) %
          (leaves m).length]?).map (fun s => DNode.item s) := by
  induction t with
  | zero =>
      intro k r hr
      have hk := (List.getElem?_eq_some_iff.mp hr).1
      rw [Function.iterate_zero_apply]
      simp [Nat.mod_eq_of_lt hk, hr]
  | succ t2 ih =>
      intro k r hr
      have hk := (List.getElem?_eq_some_iff.mp hr).1
      have hpos : 0 < (leaves m).length := by omega
      rw [Function.iterate_succ_apply]
      have hstep := next_idx_step_mod m up k r hr
      have hlt : (k + (if up then (leaves m).length - 1 else 1)) %
          (leaves m).length < (leaves m).length := Nat.mod_lt _ hpos
      cases h2 : (leaves m)[(k + (if up then (leaves m).length - 1 else 1)) %
          (leaves m).length]? with
      | none =>
          have h3 := List.getElem?_eq_none_iff.mp h2
          omega
      | some r2 =>
          have harg : _next_idx m (some (DNode.item r)) up =
              some (DNode.item r2) := by
            rw [hstep, h2]
            rfl
          rw [harg, ih _ r2 h2]
          have hidx : ((k + (if up then (leaves m).length - 1 else 1)) %
                (leaves m).length +
                t2 * (if up then (leaves m).length - 1 else 1)) %
              (leaves m).length =
              (k + (t2 + 1) * (if up then (leaves m).length - 1 else 1)) %
              (leaves m).length := by
            rw [Nat.mod_add_mod]
            congr 1
            ring
          rw [hidx]

/-! ### Claim theorems on the navigator -/

/-- C7: composing the navigator step with itself `itemCount` times in a
single direction returns to the starting leaf, for every model with at
least one leaf and every starting leaf: forward traversal wraps from the
last leaf to the first leaf of the first non-empty category and backward
traversal wraps from the first leaf to the last leaf of the last
non-empty category. -/
theorem c7_wraparound_closure (m : CompletionModel) (up : Bool)
    (r : Nat × Nat) (h : r ∈ leaves m) :
    (fun c => _next_idx m c up)^[itemCount m] (some (DNode.item r)) =
      some (DNode.item r) := by
  obtain ⟨k, hk, hget⟩ := List.getElem_of_mem h
  have hr : (leaves m)[k]? = some r := by
    rw [List.getElem?_eq_getElem hk, hget]
  rw [itemCount_eq_length, next_idx_iterate m up ((leaves m).length) k r hr]
  have hmod : (k + (leaves m).length *
      (if up then (leaves m).length - 1 else 1)) % (leaves m).length = k := by
    rw [Nat.mul_comm, Nat.add_mul_mod_self_right]
    exact Nat.mod_eq_of_lt hk
  rw [hmod, List.getElem?_eq_getElem hk, hget]
  rfl

theorem c7_wraparound_closure_witness :
    (fun c => _next_idx exModel2 c false)^[itemCount exModel2]
        (some (DNode.item (0, 0))) = some (DNode.item (0, 0)) :=
  c7_wraparound_closure exModel2 false (0, 0) (by decide)

/-- C8: the navigator never returns a category header: for every model
and selection cursor, `_next_idx` yields an item row (a leaf whose
parent is a category) or `none`. -/
theorem c8_navigator_never_category (m : CompletionModel)
    (cursor : Option DNode) (up : Bool) :
    _next_idx m cursor up = none ∨
      ∃ r, _next_idx m cursor up = some (DNode.item r) := by
  have hfirst : first_item m = none ∨
      ∃ r, first_item m = some (DNode.item r) := by
    rw [first_item_eq]
    cases (leaves m).head? with
    | none => exact Or.inl rfl
    | some r => exact Or.inr ⟨r, rfl⟩
  have hlast : last_item m = none ∨
      ∃ r, last_item m = some (DNode.item r) := by
    rw [last_item_eq]
    cases (leaves m).getLast? with
    | none => exact Or.inl rfl
    | some r => exact Or.inr ⟨r, rfl⟩
  cases cursor with
  | none => simpa [_next_idx] using hfirst
  | some idx =>
      cases up with
      | true =>
          cases hf : firstItemRow ((rowsBefore (displayList m) idx).reverse) with
          | some d =>
              obtain ⟨r, rfl⟩ := firstItemRow_shape hf
              exact Or.inr ⟨r, by simp [_next_idx, hf]⟩
          | none =>
              have he : _next_idx m (some idx) true = last_item m := by
                simp [_next_idx, hf]
              rw [he]
              exact hlast
      | false =>
          cases hf : firstItemRow (rowsAfter (displayList m) idx) with
          | some d =>
              obtain ⟨r, rfl⟩ := firstItemRow_shape hf
              exact Or.inr ⟨r, by simp [_next_idx, hf]⟩
          | none =>
              have he : _next_idx m (some idx) false = first_item m := by
                simp [_next_idx, hf]
              rw [he]
              exact hfirst

/-- C2 counterexample: on a model with two leaves, navigating backward
from an empty selection returns the FIRST leaf (the source returns
`self._model.first_item()` for either direction), not the last leaf the
claim requires. -/
theorem c2_counterexample :
    _next_idx exModel2 none true = some (DNode.item (0, 0)) ∧
    last_item exModel2 = some (DNode.item (0, 1)) ∧
    _next_idx exModel2 none true ≠ last_item exModel2 :=
  ⟨rfl, rfl, by decide⟩

/-- C2 (amended): for a model with at least one leaf and an empty
selection cursor, navigating in EITHER direction returns the first leaf
of the first non-empty category (the head of the leaf traversal
order). -/
theorem c2_amended_none_always_first (m : CompletionModel) (up : Bool)
    (h : 1 ≤ itemCount m) :
    _next_idx m none up = ((leaves m).head?).map (fun r => DNode.item r) ∧
    ((leaves m).head?).isSome = true := by
  constructor
  · show first_item m = ((leaves m).head?).map (fun r => DNode.item r)
    exact first_item_eq m
  · rw [itemCount_eq_length] at h
    rw [List.head?_eq_getElem?, List.getElem?_eq_getElem (by omega)]
    rfl

theorem c2_amended_none_always_first_witness :
    (_next_idx exModel2 none true =
      ((leaves exModel2).head?).map (fun r => DNode.item r)) ∧
    ((leaves exModel2).head?).isSome = true :=
  c2_amended_none_always_first exModel2 true (by decide)

/-! ### Claim theorems (first batch) -/

/-- C10: when the completion surface is hidden, `completion_item_next`
and `completion_item_prev` are complete no-ops: the state is returned
unchanged (selection included) and no signal is emitted. -/
theorem c10_hidden_nav_noop (q : Bool) (st : EngineState)
    (h : st.visible = false) :
    completion_item_next q st = some (st, []) ∧
    completion_item_prev q st = some (st, []) := by
  unfold completion_item_next completion_item_prev _next_prev_item
  simp [h]

theorem c10_hidden_nav_noop_witness :
    completion_item_next true (exState (some exModel2) false) =
      some (exState (some exModel2) false, []) ∧
    completion_item_prev true (exState (some exModel2) false) =
      some (exState (some exModel2) false, []) :=
  c10_hidden_nav_noop true (exState (some exModel2) false) rfl

/-- C4: while `_ignore_change` is raised, a text-changed event delivered
to `on_update_completion` performs no work and changes no engine state;
once the guard is dropped again (as the provisional write-back does
before returning), the next event runs the full update body. -/
theorem c4_guarded_update_noop (reg : Registry) (st : EngineState)
    (pre : Char) (parts : List String) (cp : Nat)
    (h : st.ignoreChange = true) :
    on_update_completion reg st pre parts cp = some (st, []) ∧
    on_update_completion reg (echoGuardOff st) pre parts cp =
      updateBody reg (echoGuardOff st) pre parts cp := by
  constructor
  · unfold on_update_completion
    simp [h]
  · unfold on_update_completion echoGuardOff
    simp

theorem c4_guarded_update_noop_witness :
    on_update_completion (exRegistry exModel2)
        ⟨true, some exModel2, some exModel2, true, true, none⟩ ':' ["open"] 0 =
      some (⟨true, some exModel2, some exModel2, true, true, none⟩, []) ∧
    on_update_completion (exRegistry exModel2)
        (echoGuardOff ⟨true, some exModel2, some exModel2, true, true, none⟩)
        ':' ["open"] 0 =
      updateBody (exRegistry exModel2)
        (echoGuardOff ⟨true, some exModel2, some exModel2, true, true, none⟩)
        ':' ["open"] 0 :=
  c4_guarded_update_noop (exRegistry exModel2)
    ⟨true, some exModel2, some exModel2, true, true, none⟩ ':' ["open"] 0 rfl

/-- C5: the reentrancy guard is false again on return of every public
engine operation entered with the guard down, on every non-faulting exit
path. -/
theorem c5_echo_guard_false_on_return (reg : Registry) (q : Bool)
    (st : EngineState) (pre : Char) (parts : List String) (cp : Nat)
    (sel : List DNode) (h : st.ignoreChange = false) :
    (∀ r, on_update_completion reg st pre parts cp = some r →
      r.1.ignoreChange = false) ∧
    (∀ r, selectionChanged q st sel = some r → r.1.ignoreChange = false) ∧
    (∀ r, completion_item_next q st = some r → r.1.ignoreChange = false) ∧
    (∀ r, completion_item_prev q st = some r → r.1.ignoreChange = false) := by
  refine ⟨fun r hr => ?_, fun r hr => ?_, fun r hr => ?_, fun r hr => ?_⟩
  · unfold on_update_completion at hr
    rw [h] at hr
    simp only [if_false, Bool.false_eq_true] at hr
    rw [updateBody_ignoreChange hr, h]
  · rcases selectionChanged_ignoreChange hr with h2 | h2
    · rw [h2, h]
    · exact h2
  · rcases next_prev_item_ignoreChange hr with h2 | h2
    · rw [h2, h]
    · exact h2
  · rcases next_prev_item_ignoreChange hr with h2 | h2
    · rw [h2, h]
    · exact h2

theorem c5_echo_guard_false_on_return_witness :
    (∀ r, on_update_completion (exRegistry exModel2)
        (exState (some exModel2) true) ':' ["open"] 0 = some r →
      r.1.ignoreChange = false) ∧
    (∀ r, selectionChanged true (exState (some exModel2) true)
        [DNode.item (0, 0)] = some r → r.1.ignoreChange = false) ∧
    (∀ r, completion_item_next true (exState (some exModel2) true) = some r →
      r.1.ignoreChange = false) ∧
    (∀ r, completion_item_prev true (exState (some exModel2) true) = some r →
      r.1.ignoreChange = false) :=
  c5_echo_guard_false_on_return (exRegistry exModel2) true
    (exState (some exModel2) true) ':' ["open"] 0 [DNode.item (0, 0)] rfl

/-- C3: a selection change resolving to an item of a singleton model
emits `change_completed_part` with `immediate = true` when quick-complete
is enabled, and with `immediate = false` (the guard toggled around the
emission) when it is disabled. -/
theorem c3_quick_complete_immediate (q : Bool) (st : EngineState)
    (m : CompletionModel) (d : DNode) (rest : List DNode) (t : String)
    (h1 : st.activeModel = some m) (h2 : dataOf m d = some t)
    (h3 : itemCount m = 1) :
    selectionChanged q st (d :: rest) =
      if q = true then some (st, [Output.changeCompletedPart t true])
      else some ({ st with ignoreChange := false },
        [Output.changeCompletedPart t false]) := by
  cases q with
  | true => simp [selectionChanged, h1, h2, h3]
  | false => simp [selectionChanged, h1, h2, h3, echoGuardOn, echoGuardOff]

theorem c3_quick_complete_immediate_witness :
    selectionChanged true (exState (some exModel1) true)
        (DNode.item (0, 0) :: []) =
      if true = true
      then some (exState (some exModel1) true,
        [Output.changeCompletedPart "open" true])
      else some ({ exState (some exModel1) true with ignoreChange := false },
        [Output.changeCompletedPart "open" false]) :=
  c3_quick_complete_immediate true (exState (some exModel1) true) exModel1
    (DNode.item (0, 0)) [] "open" rfl rfl rfl

/-- C1 counterexample: with the command marker, a resolvable source and
a non-empty parts list, a `cursorPart` beyond the parts list makes
`on_update_completion` fault (Python `IndexError` at
`parts[cursor_part]`), instead of clamping to an empty pattern. -/
theorem c1_counterexample :
    on_update_completion (exRegistry exModel2) (exState none false)
      ':' ["open"] 1 = none := rfl

/-- C1 (amended): the defensive treatment only covers the empty-parts
case (`if parts else ''`): with `parts = []` the pattern is `''` and the
update completes normally, but with non-empty `parts` and `cursorPart`
out of range the indexing fault propagates out of the handler. -/
theorem c1_amended_empty_parts_only (reg : Registry) (st : EngineState)
    (parts : List String) (cp : Nat) (m : CompletionModel)
    (h1 : st.ignoreChange = false) (h2 : reg.resolve parts cp = some m)
    (h3 : modelSame (some m) st.lastModel = false) :
    (parts = [] → (on_update_completion reg st ':' parts cp).isSome = true) ∧
    (parts ≠ [] → parts.length ≤ cp →
      on_update_completion reg st ':' parts cp = none) := by
  have hbody : on_update_completion reg st ':' parts cp =
      afterPattern reg (set_model { st with lastModel := some m } m).1
        parts cp (set_model { st with lastModel := some m } m).2 := by
    unfold on_update_completion updateBody
    rw [h1]
    simp only [Bool.false_eq_true, if_false, ne_eq, not_true_eq_false, h2, h3]
  constructor
  · intro hp
    subst hp
    rw [hbody]
    unfold afterPattern extract_pattern
    simp only [List.isEmpty_nil, if_true, set_model]
    split
    · rfl
    · split
      · rfl
      · rfl
  · intro hp hcp
    rw [hbody]
    unfold afterPattern extract_pattern
    have hnone : parts[cp]? = none := List.getElem?_eq_none hcp
    simp [List.isEmpty_iff.not.mpr hp, hnone]

theorem c1_amended_empty_parts_only_witness :
    (on_update_completion (exRegistry exModel2) (exState none false)
      ':' [] 0).isSome = true :=
  (c1_amended_empty_parts_only (exRegistry exModel2) (exState none false)
    [] 0 exModel2 rfl rfl rfl).1 rfl

/-- C6 counterexample: when resolution yields `none` but `_lastmodel` is
already `None`, the handler returns through `if model is None: return`
without calling `hide()` — a prior state with the surface visible keeps
it visible, contradicting "hides ... regardless of the prior state". -/
theorem c6_counterexample :
    on_update_completion exRegistryNone (exState none true) ':' ["foo"] 0 =
      some (exState none true, []) ∧
    (exState none true).visible = true := ⟨rfl, rfl⟩

/-- C6 (amended): a `none` resolution ends the cycle with no further
processing; the surface is hidden when the prefix is not the command
marker or when `lastModel` was non-`none`, but when `lastModel` was
already `none` the handler returns with all state (visibility included)
unchanged. -/
theorem c6_amended_hide_on_none (reg : Registry) (st : EngineState)
    (pre : Char) (parts : List String) (cp : Nat)
    (h1 : st.ignoreChange = false) :
    (pre ≠ ':' → on_update_completion reg st pre parts cp =
      some ({ st with visible := false }, [])) ∧
    (reg.resolve parts cp = none →
      (st.lastModel = none → on_update_completion reg st ':' parts cp =
        some (st, [])) ∧
      (∀ lm, st.lastModel = some lm →
        on_update_completion reg st ':' parts cp =
          some ({ st with lastModel := none, visible := false }, []))) := by
  constructor
  · intro hpre
    unfold on_update_completion updateBody
    rw [h1]
    simp [hpre]
  · intro hres
    constructor
    · intro hlast
      unfold on_update_completion updateBody
      rw [h1]
      simp [hres, hlast, modelSame]
    · intro lm hlast
      unfold on_update_completion updateBody
      rw [h1]
      simp [hres, hlast, modelSame]

theorem c6_amended_hide_on_none_witness :
    on_update_completion exRegistryNone (exState none true) 'f' ["foo"] 0 =
      some ({ exState none true with visible := false }, []) :=
  (c6_amended_hide_on_none exRegistryNone (exState none true) 'f' ["foo"] 0
    rfl).1 (by decide)

/-- C9 counterexample: an item whose primary display text is the empty
string (present but empty) still triggers an emission, because the
source only checks `data is not None` — contradicting "a selection whose
primary display text is empty produces no emission". -/
theorem c9_counterexample :
    selectionChanged false (exState (some exModelEmptyText) true)
        [DNode.item (0, 0)] =
      some (exState (some exModelEmptyText) true,
        [Output.changeCompletedPart "" false]) := rfl

/-- C9 (amended): the selection-change handler emits
`change_completed_part` exactly when the newly selected index's data is
present (`is not None`); absent data produces no emission, while an
empty string still emits. -/
theorem c9_amended_emits_iff_data_present (q : Bool) (st : EngineState)
    (m : CompletionModel) (d : DNode) (rest : List DNode)
    (h : st.activeModel = some m) :
    (dataOf m d = none → selectionChanged q st (d :: rest) = some (st, [])) ∧
    (∀ t, dataOf m d = some t → ∃ st2 b,
      selectionChanged q st (d :: rest) =
        some (st2, [Output.changeCompletedPart t b])) := by
  constructor
  · intro hd
    simp [selectionChanged, h, hd]
  · intro t hd
    by_cases hq : itemCount m = 1 ∧ q = true
    · exact ⟨st, true, by simp [selectionChanged, h, hd, hq]⟩
    · exact ⟨echoGuardOff (echoGuardOn st), false,
        by simp [selectionChanged, h, hd, hq]⟩

theorem c9_amended_emits_iff_data_present_witness :
    selectionChanged true (exState (some exModelNoData) true)
        (DNode.item (0, 0) :: []) =
      some (exState (some exModelNoData) true, []) :=
  (c9_amended_emits_iff_data_present true (exState (some exModelNoData) true)
    exModelNoData (DNode.item (0, 0)) [] rfl).1 rfl

end Completion
